import Mathlib

/-!
Verification development for the BGforge MLS language-server core
(incremental symbol index, pattern extractor, diagnostic parser, position
resolver).  JavaScript strings are embedded as `List Char`; the regular
expressions of the source are translated into explicit scanning functions
with the exact greedy/backtracking semantics of the JS engine on these
patterns; JS `Map` objects are embedded as association lists with the
insertion-order semantics of ECMAScript (`set` on an existing key replaces
the value in place, on a fresh key appends at the end).
-/

namespace BGforge

/-! Character classes of the JavaScript regular expressions. -/

/-- JS regex `\w` : `[A-Za-z0-9_]`. -/
def isWordChar (c : Char) : Bool :=
  (97 ≤ c.toNat && c.toNat ≤ 122) || (65 ≤ c.toNat && c.toNat ≤ 90) ||
  (48 ≤ c.toNat && c.toNat ≤ 57) || c == '_'

/-- JS regex `\d` : `[0-9]`. -/
def isDigitChar (c : Char) : Bool :=
  48 ≤ c.toNat && c.toNat ≤ 57

/-- JS regex `[A-Z0-9_]` (the character set of `constant_regex`). -/
def isConstChar (c : Char) : Bool :=
  (65 ≤ c.toNat && c.toNat ≤ 90) || (48 ≤ c.toNat && c.toNat ≤ 57) || c == '_'

/-- JS regex `\s` : whitespace (ASCII part plus the code points JS adds). -/
def isJsWhitespace (c : Char) : Bool :=
  (9 ≤ c.toNat && c.toNat ≤ 13) || c.toNat == 32 || c.toNat == 160 ||
  c.toNat == 5760 || (8192 ≤ c.toNat && c.toNat ≤ 8202) ||
  c.toNat == 8232 || c.toNat == 8233 || c.toNat == 8239 ||
  c.toNat == 8287 || c.toNat == 12288 || c.toNat == 65279

/-- Line terminators, which JS regex `.` does not match. -/
def isLineTerm (c : Char) : Bool :=
  c == '\n' || c == '\r' || c.toNat == 8232 || c.toNat == 8233

/-- Space or tab, the set `[ \t]` used by the `#define` pattern. -/
def isSpaceTab (c : Char) : Bool :=
  c == ' ' || c == '\t'

/-! JS string primitives. -/

/-- Index resolution of a JS `String.prototype.slice` argument: negative
values count from the end, and the result is clamped to `[0, len]`. -/
def jsSliceIdx (len : Nat) (i : Int) : Nat :=
  if i < 0 then ((len : Int) + i).toNat else min i.toNat len

/-- JS `s.slice(i)` on a character list. -/
def jsSliceFrom (cs : List Char) (i : Int) : List Char :=
  cs.drop (jsSliceIdx cs.length i)

/-- JS `s.slice(i, j)` on a character list. -/
def jsSlice (cs : List Char) (i j : Int) : List Char :=
  (cs.take (jsSliceIdx cs.length j)).drop (jsSliceIdx cs.length i)

/-- JS `s.search(/\w+$/)` : start index of the maximal word-character
suffix run, `-1` when the string does not end in a word character. -/
def searchWordSuffix (cs : List Char) : Int :=
  let k := (cs.reverse.takeWhile isWordChar).length
  if k = 0 then -1 else ((cs.length - k : Nat) : Int)

/-- JS `s.search(/\S+$/)` : start index of the maximal non-whitespace
suffix run, `-1` when the string ends in whitespace or is empty. -/
def searchNonWsSuffix (cs : List Char) : Int :=
  let k := (cs.reverse.takeWhile (fun c => !isJsWhitespace c)).length
  if k = 0 then -1 else ((cs.length - k : Nat) : Int)

/-- JS `s.search(/\W/)` : index of the first non-word character, `-1`
when every character is a word character. -/
def searchNonWord (cs : List Char) : Int :=
  let k := (cs.takeWhile isWordChar).length
  if k = cs.length then -1 else (k : Int)

/-- JS `/^\d+$/.test` (the `onlyDigits` helper of `common.ts`). -/
def onlyDigits (cs : List Char) : Bool :=
  !cs.isEmpty && cs.all isDigitChar

/-- JS `text.split(/\r?\n/g)` : line splitting where a lone `\r` is not a
separator. -/
def splitLinesAux : List Char → List Char → List (List Char)
  | [], acc => [acc.reverse]
  | '\r' :: '\n' :: t, acc => acc.reverse :: splitLinesAux t []
  | '\n' :: t, acc => acc.reverse :: splitLinesAux t []
  | c :: t, acc => splitLinesAux t (c :: acc)

def splitLines (cs : List Char) : List (List Char) :=
  splitLinesAux cs []

/-! Position resolver (`symbolAtPosition` in `common.ts`). -/

/-- First pass of `symbolAtPosition` on one line: word-character bounds
around the cursor, last-word-of-line special case included. -/
def firstPassToken (cs : List Char) (pos : Nat) : List Char :=
  let left := searchWordSuffix (cs.take (pos + 1))
  let right := searchNonWord (cs.drop pos)
  if right < 0 then jsSliceFrom cs left else jsSlice cs left (right + (pos : Int))

/-- Fallback pass of `symbolAtPosition`: the left bound is re-computed
with the non-whitespace class, the right bound with the non-word class. -/
def fallbackToken (cs : List Char) (pos : Nat) : List Char :=
  let left := searchNonWsSuffix (cs.take (pos + 1))
  let right := searchNonWord (cs.drop pos)
  if right < 0 then jsSliceFrom cs left else jsSlice cs left (right + (pos : Int))

/-- Token extraction on the selected line, as in `symbolAtPosition`:
take the word around the cursor, and when it consists solely of digits,
re-run with the broader left-bound class. -/
def symbolInLine (cs : List Char) (pos : Nat) : List Char :=
  let result := firstPassToken cs pos
  if !onlyDigits result then result
  else fallbackToken cs pos

/-- `symbolAtPosition` of `common.ts`.  `none` models the TypeError the
source raises when the position's line is outside the text. -/
def symbolAtPosition (text : String) (line character : Nat) : Option String :=
  let lines := splitLines text.data
  if h : line < lines.length then
    some (String.mk (symbolInLine (lines.get ⟨line, h⟩) character))
  else none

/-! Structured doc comments (`jsdoc.ts` shapes). -/

structure JSdocArg where
  type : String
  name : String
deriving Repr, DecidableEq

structure JSdocRet where
  type : String
deriving Repr, DecidableEq

structure JSdoc where
  desc : Option String
  args : List JSdocArg
  ret : Option JSdocRet
deriving Repr, DecidableEq

/-- Modelled from the spec: the doc-comment parser lives in `jsdoc.ts`,
which is not under `src/`.  The spec fixes only its output shape
("StructuredDoc — parsed doc-comment: description?, params: ordered
sequence of name and type, returns?: type, produced only when a
recognized doc-comment block immediately precedes a declaration").  The
parser below produces that shape from the block text; no claim in this
development depends on the values it extracts. -/
def jsdocParse (block : List Char) : JSdoc :=
  let cleaned := (splitLines block).map (fun l =>
    (((l.dropWhile isJsWhitespace).dropWhile
        (fun c => c == '*' || c == '/')).dropWhile (fun c => c == ' ')))
  cleaned.foldl (fun acc l =>
    if "@param".data.isPrefixOf l then
      let r := (l.drop 6).dropWhile isJsWhitespace
      let tyAndRest : List Char × List Char :=
        if r.head? = some '\x7b' then
          let t := (r.drop 1).takeWhile (fun c => c != '\x7d')
          (t, (r.drop (1 + t.length + 1)).dropWhile isJsWhitespace)
        else ([], r)
      let nm := tyAndRest.2.takeWhile (fun c => !isJsWhitespace c)
      { acc with args := acc.args ++ [⟨String.mk tyAndRest.1, String.mk nm⟩] }
    else if "@ret".data.isPrefixOf l then
      let r := (l.dropWhile (fun c => !isJsWhitespace c)).dropWhile isJsWhitespace
      let t :=
        if r.head? = some '\x7b' then (r.drop 1).takeWhile (fun c => c != '\x7d')
        else r.takeWhile (fun c => !isJsWhitespace c)
      { acc with ret := some ⟨String.mk t⟩ }
    else if l.isEmpty || acc.desc.isSome then acc
    else { acc with desc := some (String.mk l) })
    { desc := none, args := [], ret := none }

/-- `jsdocToMD` of `fallout-ssl.ts`. -/
def jsdocToMD (jsd : JSdoc) : String :=
  let md := "\n---\n"
  let md := match jsd.desc with
    | some d => md ++ "\n" ++ d
    | none => md
  let md := jsd.args.foldl (fun m a => m ++ "\n- `" ++ a.type ++ "` " ++ a.name) md
  match jsd.ret with
  | some r => md ++ "\n\n Returns `" ++ r.type ++ "`"
  | none => md

/-- `jsdocToDetail` of `fallout-ssl.ts`. -/
def jsdocToDetail (label : String) (jsd : JSdoc) : String :=
  let type := match jsd.ret with
    | some r => r.type
    | none => "void"
  let argsString := String.intercalate ", " (jsd.args.map (fun a => a.type ++ " " ++ a.name))
  type ++ " " ++ label ++ "(" ++ argsString ++ ")"

/-! Pattern extractor (`find_symbols` in `fallout-ssl.ts`). -/

structure DefineListItem where
  label : String
  detail : String
  constant : Bool
  multiline : Bool
  firstline : String
  jsdoc : Option JSdoc
deriving Repr, DecidableEq

structure ProcListItem where
  label : String
  detail : String
  jsdoc : Option JSdoc
deriving Repr, DecidableEq

structure HeaderDataList where
  macros : List DefineListItem
  procedures : List ProcListItem
deriving Repr, DecidableEq

/-- JS `String.prototype.trimEnd` (trailing whitespace removed). -/
def jsTrimEnd (cs : List Char) : List Char :=
  (cs.reverse.dropWhile isJsWhitespace).reverse

/-- JS `s.endsWith("\\")`. -/
def endsWithBackslash (cs : List Char) : Bool :=
  cs.getLast? == some '\\'

/-- JS `/^[A-Z0-9_]+/.test` (`constant_regex` of `fallout-ssl.ts`): the
pattern is anchored only at the start, so the test succeeds exactly when
the first character belongs to the class. -/
def testLeadingConst (cs : List Char) : Bool :=
  match cs with
  | [] => false
  | c :: _ => isConstChar c

/-- Index of the first occurrence of `pat` in a character list. -/
def findSub (pat : List Char) : List Char → Option Nat
  | [] => if pat.isEmpty then some 0 else none
  | c :: t =>
    if pat.isPrefixOf (c :: t) then some 0
    else (findSub pat t).map (· + 1)

/-- Match of the optional jsdoc group `(\/\*\*\s*\n([^*]|(\*(?!\/)))*\*\/)`
at the head of `cs`: `/**`, then greedy whitespace backtracked to its last
newline, then any characters up to the first `*/`.  Returns the consumed
length and the matched block (regex group 2). -/
def tryJsdocAt (cs : List Char) : Option (Nat × List Char) :=
  if "/**".data.isPrefixOf cs then
    let rest := cs.drop 3
    let w := rest.takeWhile isJsWhitespace
    if w.contains '\n' then
      match findSub "*/".data (rest.drop w.length) with
      | some k =>
        let len := 3 + w.length + k + 2
        some (len, cs.take len)
      | none => none
    else none
  else none

/-- Consumption of `\r?\n` at the head of a character list. -/
def dropCrLf : List Char → Option Nat
  | '\r' :: '\n' :: _ => some 2
  | '\n' :: _ => some 1
  | _ => none

/-- Match of the optional `\(([^)]+)\)` group at the head of `cs`.  When
the head is an opening parenthesis but the group cannot complete, the
enclosing match fails as a whole (skipping the group leaves the following
mandatory whitespace class facing the parenthesis), which the caller
realises because the unconsumed parenthesis is not whitespace. -/
def tryParenGroup (cs : List Char) : Option (Nat × List Char) :=
  match cs.head? with
  | some '(' =>
    let inner := (cs.drop 1).takeWhile (fun c => c != ')')
    if inner.length = 0 then none
    else match (cs.drop (1 + inner.length)).head? with
      | some ')' => some (inner.length + 2, inner)
      | _ => none
  | _ => none

/-- Match of `#define[ \t]+(\w+)(?:\(([^)]+)\))?[ \t]+(.+)` at the head of
`m`: returns consumed length, macro name, optional parameter text and the
raw value text (regex group 7).  When the value position sits at a line
end, the greedy `[ \t]+` backtracks by one character and `(.+)` matches
that single released whitespace character. -/
def tryDefineCore (m : List Char) : Option (Nat × List Char × Option (List Char) × List Char) :=
  if "#define".data.isPrefixOf m then
    let m1 := m.drop 7
    let sp := m1.takeWhile isSpaceTab
    if sp.length = 0 then none else
    let m2 := m1.drop sp.length
    let name := m2.takeWhile isWordChar
    if name.length = 0 then none else
    let m3 := m2.drop name.length
    let pr := tryParenGroup m3
    let prLen := match pr with
      | some (l, _) => l
      | none => 0
    let m4 := m3.drop prLen
    let t2 := m4.takeWhile isSpaceTab
    if t2.length = 0 then none else
    let m5 := m4.drop t2.length
    let consumed := 7 + sp.length + name.length + prLen + t2.length
    match m5.head? with
    | some c =>
      if isLineTerm c then
        if 2 ≤ t2.length then
          match t2.getLast? with
          | some w => some (consumed, name, pr.map (·.2), [w])
          | none => none
        else none
      else
        let v := m5.takeWhile (fun c => !isLineTerm c)
        some (consumed + v.length, name, pr.map (·.2), v)
    | none =>
      if 2 ≤ t2.length then
        match t2.getLast? with
        | some w => some (consumed, name, pr.map (·.2), [w])
        | none => none
      else none
  else none

structure DefineRaw where
  len : Nat
  name : List Char
  args : Option (List Char)
  value : List Char
  doc : Option (List Char)

/-- Match of the full define pattern (optional jsdoc block, then `\r?\n`,
then the core) at the head of `cs`.  When the jsdoc group matched but the
remainder fails, the engine retries without the group, which cannot
succeed because the position holds a slash, so the whole match fails. -/
def tryDefineAt (cs : List Char) : Option DefineRaw :=
  match tryJsdocAt cs with
  | some (jl, grp) =>
    (match dropCrLf (cs.drop jl) with
     | some nl =>
       (tryDefineCore (cs.drop (jl + nl))).map
         (fun r => ⟨jl + nl + r.1, r.2.1, r.2.2.1, r.2.2.2, some grp⟩)
     | none => none)
  | none =>
    (tryDefineCore cs).map (fun r => ⟨r.1, r.2.1, r.2.2.1, r.2.2.2, none⟩)

/-- Body of the define `while` loop of `find_symbols`: item construction
from one regex match. -/
def mkDefineItem (raw : DefineRaw) : DefineListItem :=
  let defineName := String.mk raw.name
  let defineFirstline := jsTrimEnd raw.value
  let multiline := endsWithBackslash defineFirstline
  let detail0 := match raw.args with
    | some vs => defineName ++ "(" ++ String.mk vs ++ ")"
    | none => defineName
  let constant := !multiline && testLeadingConst raw.name
  match raw.doc with
  | some d =>
    let jsd := jsdocParse d
    { label := defineName, constant := constant,
      detail := jsdocToDetail defineName jsd,
      multiline := multiline, firstline := String.mk defineFirstline,
      jsdoc := some jsd }
  | none =>
    { label := defineName, constant := constant, detail := detail0,
      multiline := multiline, firstline := String.mk defineFirstline,
      jsdoc := none }

/-- Global scan of the define pattern: leftmost match, then continue after
its end, exactly as the `exec` loop with its advancing `lastIndex`. -/
def scanDefines : Nat → List Char → List DefineListItem
  | 0, _ => []
  | fuel + 1, cs =>
    match tryDefineAt cs with
    | some raw => mkDefineItem raw :: scanDefines fuel (cs.drop (max raw.len 1))
    | none =>
      match cs with
      | [] => []
      | _ :: t => scanDefines fuel t

/-- Match of `procedure[\s]+(\w+)(?:\(([^)]+)\))?[\s]+begin` at the head
of `m`. -/
def tryProcCore (m : List Char) : Option (Nat × List Char × Option (List Char)) :=
  if "procedure".data.isPrefixOf m then
    let m1 := m.drop 9
    let sp := m1.takeWhile isJsWhitespace
    if sp.length = 0 then none else
    let m2 := m1.drop sp.length
    let name := m2.takeWhile isWordChar
    if name.length = 0 then none else
    let m3 := m2.drop name.length
    let pr := tryParenGroup m3
    let prLen := match pr with
      | some (l, _) => l
      | none => 0
    let m4 := m3.drop prLen
    let t2 := m4.takeWhile isJsWhitespace
    if t2.length = 0 then none else
    let m5 := m4.drop t2.length
    if "begin".data.isPrefixOf m5 then
      some (9 + sp.length + name.length + prLen + t2.length + 5, name, pr.map (·.2))
    else none
  else none

structure ProcRaw where
  len : Nat
  name : List Char
  args : Option (List Char)
  doc : Option (List Char)

/-- Match of the full procedure pattern at the head of `cs`. -/
def tryProcAt (cs : List Char) : Option ProcRaw :=
  match tryJsdocAt cs with
  | some (jl, grp) =>
    (match dropCrLf (cs.drop jl) with
     | some nl =>
       (tryProcCore (cs.drop (jl + nl))).map
         (fun r => ⟨jl + nl + r.1, r.2.1, r.2.2, some grp⟩)
     | none => none)
  | none =>
    (tryProcCore cs).map (fun r => ⟨r.1, r.2.1, r.2.2, none⟩)

/-- Body of the procedure `while` loop of `find_symbols`. -/
def mkProcItem (raw : ProcRaw) : ProcListItem :=
  let procName := String.mk raw.name
  let detail0 := match raw.args with
    | some vs => "procedure " ++ procName ++ "(" ++ String.mk vs ++ ")"
    | none => "procedure " ++ procName ++ "()"
  match raw.doc with
  | some d =>
    let jsd := jsdocParse d
    { label := procName, detail := jsdocToDetail procName jsd, jsdoc := some jsd }
  | none => { label := procName, detail := detail0, jsdoc := none }

/-- Global scan of the procedure pattern. -/
def scanProcs : Nat → List Char → List ProcListItem
  | 0, _ => []
  | fuel + 1, cs =>
    match tryProcAt cs with
    | some raw => mkProcItem raw :: scanProcs fuel (cs.drop (max raw.len 1))
    | none =>
      match cs with
      | [] => []
      | _ :: t => scanProcs fuel t

/-- `find_symbols` of `fallout-ssl.ts`. -/
def find_symbols (text : String) : HeaderDataList :=
  { macros := scanDefines (text.data.length + 1) text.data,
    procedures := scanProcs (text.data.length + 1) text.data }

/-! JS `Map` embedding: association lists with ECMAScript insertion-order
semantics. -/

/-- JS `map.set(k, v)` : replace in place when the key exists, append
otherwise. -/
def mapSet {α : Type} (k : String) (v : α) : List (String × α) → List (String × α)
  | [] => [(k, v)]
  | (a, b) :: t => if a = k then (k, v) :: t else (a, b) :: mapSet k v t

/-- JS `map.get(k)` (an absent key gives `undefined`). -/
def mapGet {α : Type} (k : String) : List (String × α) → Option α
  | [] => none
  | (a, b) :: t => if a = k then some b else mapGet k t

/-- JS `new Map(entries)` : successive `set` of each entry. -/
def mapFromList {α : Type} (l : List (String × α)) : List (String × α) :=
  l.foldl (fun m kv => mapSet kv.1 kv.2 m) []

/-! Completion and hover payloads (`fallout-ssl.ts` loaders). -/

structure MarkupContent where
  kind : String
  value : String
deriving Repr, DecidableEq

/-- `MarkupKind.Markdown`. -/
def markdownKind : String := "markdown"

/-- `CompletionItemKind` codes used by the loaders. -/
def kindFunction : Nat := 3
def kindField : Nat := 5
def kindConstant : Nat := 21

structure CompletionItemEx where
  label : String
  documentation : MarkupContent
  source : String
  kind : Nat
  labelDetails : Option String
deriving Repr, DecidableEq

structure HoverEx where
  contents : MarkupContent
  source : String
deriving Repr, DecidableEq

abbrev HoverMap : Type := List (String × HoverEx)

structure DynamicData where
  completion : List CompletionItemEx
  hover : HoverMap
deriving DecidableEq

/-- `lang_id` constant of `fallout-ssl.ts`. -/
def lang_id : String := "fallout-ssl"

/-- Markdown hover/completion text built for one macro in `load_macros`. -/
def macroMarkdown (path : String) (m : DefineListItem) : String :=
  let detail := if m.constant then m.firstline else m.detail
  let v := String.intercalate "\n"
    ["```" ++ lang_id, detail, "```", "\n```bgforge-mls-comment\n", path, "```"]
  if !m.multiline && !m.constant then
    v ++ String.intercalate "\n" ["\n```" ++ lang_id, m.firstline, "```"]
  else v

def macroCompletionItem (path : String) (m : DefineListItem) : CompletionItemEx :=
  { label := m.label,
    documentation := { kind := markdownKind, value := macroMarkdown path m },
    source := path,
    kind := if m.constant then kindConstant else kindField,
    labelDetails := some path }

def macroHoverItem (path : String) (m : DefineListItem) : HoverEx :=
  { contents := { kind := markdownKind, value := macroMarkdown path m },
    source := path }

/-- `load_macros` of `fallout-ssl.ts`: pushes a completion item and sets a
hover entry for each macro, mutating both accumulators. -/
def load_macros (path : String) (headerData : HeaderDataList)
    (completionList : List CompletionItemEx) (hoverMap : HoverMap) :
    List CompletionItemEx × HoverMap :=
  headerData.macros.foldl
    (fun acc m =>
      (acc.1 ++ [macroCompletionItem path m],
       mapSet m.label (macroHoverItem path m) acc.2))
    (completionList, hoverMap)

/-- Markdown hover/completion text built for one procedure in
`load_procedures`. -/
def procMarkdown (path : String) (p : ProcListItem) : String :=
  let v := String.intercalate "\n"
    ["```" ++ lang_id, p.detail, "```", "\n```bgforge-mls-comment\n", path, "```"]
  match p.jsdoc with
  | some j => v ++ jsdocToMD j
  | none => v

def procCompletionItem (path : String) (p : ProcListItem) : CompletionItemEx :=
  { label := p.label,
    documentation := { kind := markdownKind, value := procMarkdown path p },
    source := path,
    kind := kindFunction,
    labelDetails := none }

def procHoverItem (path : String) (p : ProcListItem) : HoverEx :=
  { contents := { kind := markdownKind, value := procMarkdown path p },
    source := path }

/-- `load_procedures` of `fallout-ssl.ts`. -/
def load_procedures (path : String) (headerData : HeaderDataList)
    (completionList : List CompletionItemEx) (hoverMap : HoverMap) :
    List CompletionItemEx × HoverMap :=
  headerData.procedures.foldl
    (fun acc p =>
      (acc.1 ++ [procCompletionItem path p],
       mapSet p.label (procHoverItem path p) acc.2))
    (completionList, hoverMap)

/-- `reload_data` of `fallout-ssl.ts`: undefined buckets default to empty,
entries attributed to `path` are dropped, freshly extracted symbols are
loaded on top. -/
def reload_data (path : String) (text : String)
    (completion : Option (List CompletionItemEx)) (hover : Option HoverMap) :
    DynamicData :=
  let symbols := find_symbols text
  let completion0 := completion.getD []
  let newCompletion := completion0.filter (fun item => item.source != path)
  let hover0 : List (String × HoverEx) := hover.getD []
  let newHover := mapFromList (hover0.filter (fun kv => kv.2.source != path))
  let afterMacros := load_macros path symbols newCompletion newHover
  let afterProcs := load_procedures path symbols afterMacros.1 afterMacros.2
  { completion := afterProcs.1, hover := afterProcs.2 }

/-! Diagnostic parser (`parse_compile_output` in `fallout-ssl.ts`). -/

/-- Value of a digit run (`parseInt` on the strings this parser feeds
it, which are always digit runs when non-empty). -/
def digitsToNat (cs : List Char) : Nat :=
  cs.foldl (fun a c => a * 10 + (c.toNat - 48)) 0

/-- `parseInt` on a possibly-empty digit run; `none` models `NaN`. -/
def parseIntDigits (cs : List Char) : Option Nat :=
  if cs.isEmpty then none else some (digitsToNat cs)

/-- Offsets of line starts, as computed by the protocol text document
(`\r\n`, `\r` and `\n` all end a line there). -/
def lineOffsetsAux : List Char → Nat → List Nat
  | [], _ => []
  | '\r' :: '\n' :: t, i => (i + 2) :: lineOffsetsAux t (i + 2)
  | '\r' :: t, i => (i + 1) :: lineOffsetsAux t (i + 1)
  | '\n' :: t, i => (i + 1) :: lineOffsetsAux t (i + 1)
  | _ :: t, i => lineOffsetsAux t (i + 1)

def lineOffsets (cs : List Char) : List Nat :=
  0 :: lineOffsetsAux cs 0

/-- `TextDocument.offsetAt` at character 0: clamps an out-of-range line to
the text length; a `NaN` line (`none`) propagates. -/
def offsetAt (doc : List Char) (line : Option Nat) : Option Nat :=
  match line with
  | none => none
  | some l =>
    let offs := lineOffsets doc
    if offs.length ≤ l then some doc.length
    else some (offs.getD l 0)

structure ParseItem where
  file : String
  line : Option Nat
  column_start : Int
  column_end : Option Int
  message : String
deriving Repr, DecidableEq

structure ParseResult where
  errors : List ParseItem
  warnings : List ParseItem
deriving Repr, DecidableEq

structure DiagMatch where
  len : Nat
  file : List Char
  lineStr : List Char
  colStr : List Char
  msg : List Char
deriving Repr, DecidableEq

/-- Tail of the diagnostic patterns after group 1:
`>:([\d]*):([\d]*):? (.*)`.  The optional colon is greedy; skipping it is
only viable when it is absent, because the mandatory space cannot match a
colon. -/
def diagTail (xs : List Char) : Option (Nat × List Char × List Char × List Char) :=
  match xs with
  | '>' :: ':' :: ys =>
    let d1 := ys.takeWhile isDigitChar
    let ys2 := ys.drop d1.length
    (match ys2 with
     | ':' :: ys3 =>
       let d2 := ys3.takeWhile isDigitChar
       let ys4 := ys3.drop d2.length
       (match ys4 with
        | ':' :: ' ' :: zs =>
          let msg := zs.takeWhile (fun c => !isLineTerm c)
          some (2 + d1.length + 1 + d2.length + 2 + msg.length, d1, d2, msg)
        | ' ' :: zs =>
          let msg := zs.takeWhile (fun c => !isLineTerm c)
          some (2 + d1.length + 1 + d2.length + 1 + msg.length, d1, d2, msg)
        | _ => none)
     | _ => none)
  | _ => none

/-- Backtracking of the greedy `(.+)` file group: the largest group-1
length in `[1, k]` whose tail completes the pattern. -/
def diagG1Search (rest : List Char) : Nat → Option (Nat × (Nat × List Char × List Char × List Char))
  | 0 => none
  | k + 1 =>
    match diagTail (rest.drop (k + 1)) with
    | some r => some (k + 1, r)
    | none => diagG1Search rest k

/-- Match of `\[Sev\] <(.+)>:([\d]*):([\d]*):? (.*)` at the head of `cs`,
for the given literal prefix (`[Error] <` or `[Warning] <`). -/
def tryDiagAt (prefixPat : List Char) (cs : List Char) : Option DiagMatch :=
  if prefixPat.isPrefixOf cs then
    let rest := cs.drop prefixPat.length
    let e := (rest.takeWhile (fun c => !isLineTerm c)).length
    match diagG1Search rest e with
    | some (k, (tl, d1, d2, msg)) =>
      some ⟨prefixPat.length + k + tl, rest.take k, d1, d2, msg⟩
    | none => none
  else none

/-- Global scan of one diagnostic pattern, as the `exec` loop. -/
def scanDiags (prefixPat : List Char) : Nat → List Char → List DiagMatch
  | 0, _ => []
  | fuel + 1, cs =>
    match tryDiagAt prefixPat cs with
    | some m => m :: scanDiags prefixPat fuel (cs.drop (max m.len 1))
    | none =>
      match cs with
      | [] => []
      | _ :: t => scanDiags prefixPat fuel t

def errorsPatternPrefix : List Char := "[Error] <".data
def warningsPatternPrefix : List Char := "[Warning] <".data

/-- Item pushed for one error match: column start 0, column end the
parsed column minus one, with an empty column group defaulting to 1. -/
def mkErrorItem (m : DiagMatch) : ParseItem :=
  let col := if m.colStr.isEmpty then "1".data else m.colStr
  { file := String.mk m.file,
    line := parseIntDigits m.lineStr,
    column_start := 0,
    column_end := (parseIntDigits col).map (fun n => (n : Int) - 1),
    message := String.mk m.msg }

/-- Item pushed for one warning match: column start the parsed column
(default 0), column end the document offset of the start of the next line
minus one. -/
def mkWarningItem (doc : List Char) (m : DiagMatch) : ParseItem :=
  let col := if m.colStr.isEmpty then "0".data else m.colStr
  let line := parseIntDigits m.lineStr
  { file := String.mk m.file,
    line := line,
    column_start := (digitsToNat col : Int),
    column_end := (offsetAt doc line).map (fun n => (n : Int) - 1),
    message := String.mk m.msg }

/-- Warning loop of `parse_compile_output`.  The first iteration calls
`offsetAt` on the looked-up text document; when the document is absent
that call raises, the `catch` that wraps both loops fires, and every
remaining match of this invocation is dropped. -/
def warnItems (docOpt : Option (List Char)) : List DiagMatch → List ParseItem
  | [] => []
  | m :: t =>
    match docOpt with
    | none => []
    | some doc => mkWarningItem doc m :: warnItems docOpt t

/-- `parse_compile_output` of `fallout-ssl.ts`.  `doc` is the result of
`documents.get(uri)`. -/
def parse_compile_output (text : String) (doc : Option String) : ParseResult :=
  let cs := text.data
  let errs := scanDiags errorsPatternPrefix (cs.length + 1) cs
  let warns := scanDiags warningsPatternPrefix (cs.length + 1) cs
  { errors := errs.map mkErrorItem,
    warnings := warnItems (doc.map (fun d => d.data)) warns }

/-! Server request handlers (`server.ts`). -/

/-- Tier lookup of `connection.onHover`: the three maps are fetched, a
fully-absent state returns early, then self, static and dynamic are
probed in that order; the dynamic branch returns its lookup result
unconditionally (the truthiness test there is on the imported module). -/
def onHoverQuery (selfData staticData dynamicData : String → Option HoverMap)
    (langId relPath word : String) : Option HoverEx :=
  let staticMap := staticData langId
  let dynamicMap := dynamicData langId
  let selfMap := selfData relPath
  if staticMap.isNone && dynamicMap.isNone && selfMap.isNone then none
  else
    match (match selfMap with
           | some m => mapGet word m
           | none => none) with
    | some r => some r
    | none =>
      match (match staticMap with
             | some m => mapGet word m
             | none => none) with
      | some r => some r
      | none =>
        match dynamicMap with
        | some m => mapGet word m
        | none => none

/-- `connection.onCompletion`: self and dynamic bucket lookups carry an
`|| []` default, the static one does not, and spreading an `undefined`
static bucket raises a TypeError, modelled by the error branch. -/
def onCompletionList (selfData staticData dynamicData : String → Option (List CompletionItemEx))
    (langId relPath : String) : Except String (List CompletionItemEx) :=
  let selfList := (selfData relPath).getD []
  let dynamicList := (dynamicData langId).getD []
  match staticData langId with
  | none => Except.error "TypeError: staticList is not iterable"
  | some staticList => Except.ok (selfList ++ staticList ++ dynamicList)

/-! Derived vocabulary used by the statements and proofs. -/

/-- Keys of an association list are pairwise distinct; every JS `Map`
satisfies this by construction. -/
def NodupKeys {α : Type} (l : List (String × α)) : Prop :=
  (l.map Prod.fst).Nodup

/-- JS `map.has(k)` on the association-list embedding. -/
def hasKey {α : Type} (k : String) (l : List (String × α)) : Bool :=
  l.any (fun e => e.1 == k)

/-- Value of the last entry carrying key `k`, the value `k` holds after
all entries of the list have been `set` in order. -/
def lastVal {α : Type} (k : String) : List (String × α) → Option α
  | [] => none
  | e :: t =>
    match lastVal k t with
    | some v => some v
    | none => if e.1 = k then some e.2 else none

instance {α : Type} (l : List (String × α)) : Decidable (NodupKeys l) := by
  unfold NodupKeys
  infer_instance

/-- Successive `set` of a list of entries onto a map. -/
def setList {α : Type} (es m : List (String × α)) : List (String × α) :=
  es.foldl (fun acc kv => mapSet kv.1 kv.2 acc) m

/-- Completion items freshly produced for one file by the two loaders, in
load order (macros, then procedures). -/
def freshCompletion (path : String) (syms : HeaderDataList) : List CompletionItemEx :=
  syms.macros.map (macroCompletionItem path) ++ syms.procedures.map (procCompletionItem path)

/-- Hover entries freshly produced for one file by the two loaders. -/
def freshHover (path : String) (syms : HeaderDataList) : List (String × HoverEx) :=
  syms.macros.map (fun m => (m.label, macroHoverItem path m)) ++
  syms.procedures.map (fun p => (p.label, procHoverItem path p))

/-! Association-list map lemmas. -/

theorem hasKey_cons {α : Type} (k : String) (f : String × α) (t : List (String × α)) :
    hasKey k (f :: t) = ((f.1 == k) || hasKey k t) := by
  simp [hasKey]

theorem hasKey_append {α : Type} (k : String) (l l' : List (String × α)) :
    hasKey k (l ++ l') = (hasKey k l || hasKey k l') := by
  simp [hasKey]

theorem mapGet_mapSet {α : Type} (k k' : String) (v : α) :
    ∀ (m : List (String × α)),
      mapGet k (mapSet k' v m) = if k' = k then some v else mapGet k m
  | [] => by
    by_cases h : k' = k <;> simp [mapSet, mapGet, h]
  | (a, b) :: t => by
    by_cases h1 : a = k'
    · subst h1
      by_cases h2 : a = k
      · subst h2
        simp [mapSet, mapGet]
      · have h3 : ¬ a = k := h2
        simp [mapSet, mapGet, h3]
    · have step := mapGet_mapSet k k' v t
      by_cases h2 : a = k
      · subst h2
        have h3 : ¬ k' = a := fun hh => h1 hh.symm
        simp [mapSet, mapGet, h1, h3]
      · simp [mapSet, mapGet, h1, h2, step]

theorem mem_mapSet {α : Type} {k : String} {v : α} :
    ∀ (m : List (String × α)) (e : String × α),
      e ∈ mapSet k v m → e = (k, v) ∨ e ∈ m
  | [], e, h => by simpa [mapSet] using h
  | (a, b) :: t, e, h => by
    by_cases h1 : a = k
    · simp only [mapSet, if_pos h1] at h
      rcases List.mem_cons.mp h with h | h
      · exact Or.inl h
      · exact Or.inr (List.mem_cons_of_mem _ h)
    · simp only [mapSet, if_neg h1] at h
      rcases List.mem_cons.mp h with h | h
      · exact Or.inr (by simp [h])
      · rcases mem_mapSet t e h with h' | h'
        · exact Or.inl h'
        · exact Or.inr (List.mem_cons_of_mem _ h')

theorem mapSet_of_not_hasKey {α : Type} {k : String} (v : α) :
    ∀ (m : List (String × α)), hasKey k m = false → mapSet k v m = m ++ [(k, v)]
  | [], _ => by simp [mapSet]
  | (a, b) :: t, h => by
    rw [hasKey_cons] at h
    have h2 := Bool.or_eq_false_iff.mp h
    have h1 : ¬ a = k := by
      intro hh
      simp [hh] at h2
    simp only [mapSet, if_neg h1, List.cons_append]
    rw [mapSet_of_not_hasKey v t h2.2]

theorem keys_mapSet {α : Type} (k : String) (v : α) :
    ∀ (m : List (String × α)),
      (mapSet k v m).map Prod.fst =
        if hasKey k m then m.map Prod.fst else m.map Prod.fst ++ [k]
  | [] => by simp [mapSet, hasKey]
  | (a, b) :: t => by
    by_cases h1 : a = k
    · subst h1
      simp [mapSet, hasKey]
    · have hne : (a == k) = false := by simpa using h1
      have step := keys_mapSet k v t
      rw [hasKey_cons]
      simp only [mapSet, if_neg h1, List.map_cons, step, hne, Bool.false_or]
      by_cases h2 : hasKey k t = true
      · simp [h2]
      · simp only [Bool.not_eq_true] at h2
        simp [h2]

theorem nodupKeys_mapSet {α : Type} {k : String} {v : α} {m : List (String × α)}
    (h : NodupKeys m) : NodupKeys (mapSet k v m) := by
  unfold NodupKeys at *
  rw [keys_mapSet]
  by_cases h1 : hasKey k m = true
  · simp only [h1, if_true]
    exact h
  · simp only [Bool.not_eq_true] at h1
    simp only [h1, Bool.false_eq_true, if_false]
    rw [List.nodup_append]
    refine ⟨h, List.nodup_singleton _, ?_⟩
    intro a ha hb
    simp only [List.mem_singleton] at hb
    subst hb
    obtain ⟨e, he, hek⟩ := List.mem_map.mp ha
    have : hasKey a m = true := by
      simp only [hasKey, List.any_eq_true]
      exact ⟨e, he, by simp [hek]⟩
    rw [h1] at this
    exact Bool.false_ne_true this

theorem setList_nil {α : Type} (m : List (String × α)) : setList [] m = m := rfl

theorem setList_cons {α : Type} (e : String × α) (es m : List (String × α)) :
    setList (e :: es) m = setList es (mapSet e.1 e.2 m) := rfl

theorem setList_append {α : Type} (es fs m : List (String × α)) :
    setList (es ++ fs) m = setList fs (setList es m) := by
  simp [setList, List.foldl_append]

theorem mapGet_setList {α : Type} (k : String) (es m : List (String × α)) :
    mapGet k (setList es m) =
      match lastVal k es with
      | some v => some v
      | none => mapGet k m := by
  induction es generalizing m with
  | nil => simp [setList, lastVal]
  | cons e es ih =>
    rw [setList_cons, ih]
    cases h1 : lastVal k es with
    | some v => simp [lastVal, h1]
    | none =>
      simp only [lastVal, h1, mapGet_mapSet]
      by_cases h2 : e.1 = k <;> simp [h2]

theorem lastVal_eq_none_of_not_hasKey {α : Type} {k : String} :
    ∀ (es : List (String × α)), hasKey k es = false → lastVal k es = none
  | [], _ => rfl
  | e :: t, h => by
    rw [hasKey_cons] at h
    have h2 := Bool.or_eq_false_iff.mp h
    have h1 : ¬ e.1 = k := by
      intro hh
      simp [hh] at h2
    simp [lastVal, lastVal_eq_none_of_not_hasKey t h2.2, h1]

theorem mem_setList {α : Type} {es m : List (String × α)} {e : String × α}
    (h : e ∈ setList es m) : e ∈ m ∨ e ∈ es := by
  induction es generalizing m with
  | nil => exact Or.inl h
  | cons f t ih =>
    rw [setList_cons] at h
    rcases ih h with h' | h'
    · rcases mem_mapSet _ _ h' with h'' | h''
      · exact Or.inr (by simp [h''])
      · exact Or.inl h''
    · exact Or.inr (List.mem_cons_of_mem _ h')

theorem nodupKeys_setList {α : Type} {es m : List (String × α)}
    (h : NodupKeys m) : NodupKeys (setList es m) := by
  induction es generalizing m with
  | nil => exact h
  | cons f t ih => exact ih (nodupKeys_mapSet h)

theorem mem_foldl_mapSet {α : Type} {e : String × α} :
    ∀ (t acc : List (String × α)),
      e ∈ t.foldl (fun m kv => mapSet kv.1 kv.2 m) acc → e ∈ acc ∨ e ∈ t
  | [], _, h => Or.inl h
  | f :: t, acc, h => by
    simp only [List.foldl_cons] at h
    rcases mem_foldl_mapSet t _ h with h' | h'
    · rcases mem_mapSet _ _ h' with h3 | h3
      · exact Or.inr (by simp [h3])
      · exact Or.inl h3
    · exact Or.inr (List.mem_cons_of_mem _ h')

theorem mem_mapFromList {α : Type} {l : List (String × α)} {e : String × α}
    (h : e ∈ mapFromList l) : e ∈ l := by
  rcases mem_foldl_mapSet l [] h with h' | h'
  · simp at h'
  · exact h'

theorem nodupKeys_foldl_mapSet {α : Type} :
    ∀ (t acc : List (String × α)), NodupKeys acc →
      NodupKeys (t.foldl (fun m kv => mapSet kv.1 kv.2 m) acc)
  | [], _, h => h
  | f :: t, acc, h => by
    simp only [List.foldl_cons]
    exact nodupKeys_foldl_mapSet t _ (nodupKeys_mapSet h)

theorem nodupKeys_mapFromList {α : Type} (l : List (String × α)) :
    NodupKeys (mapFromList l) :=
  nodupKeys_foldl_mapSet l [] (by simp [NodupKeys])

theorem foldl_mapSet_eq_append {α : Type} :
    ∀ (t acc : List (String × α)),
      (∀ k, hasKey k acc = true → k ∉ t.map Prod.fst) → NodupKeys t →
      t.foldl (fun m kv => mapSet kv.1 kv.2 m) acc = acc ++ t
  | [], acc, _, _ => by simp
  | f :: t, acc, hdisj, hnd => by
    simp only [List.foldl_cons]
    have hfk : hasKey f.1 acc = false := by
      cases hc : hasKey f.1 acc
      · rfl
      · exact absurd (by simp : f.1 ∈ (f :: t).map Prod.fst) (hdisj f.1 hc)
    rw [mapSet_of_not_hasKey _ _ hfk]
    have hnd2 : (f.1 :: t.map Prod.fst).Nodup := by
      have hx := hnd
      unfold NodupKeys at hx
      simpa only [List.map_cons] using hx
    have hnodup := List.nodup_cons.mp hnd2
    have hnd' : NodupKeys t := by
      unfold NodupKeys
      exact hnodup.2
    have hdisj' : ∀ k, hasKey k (acc ++ [(f.1, f.2)]) = true → k ∉ t.map Prod.fst := by
      intro k hk
      rw [hasKey_append] at hk
      rcases Bool.or_eq_true_iff.mp hk with hk | hk
      · intro hmem
        exact hdisj k hk (by simp [hmem])
      · have hkf : f.1 = k := by
          simpa [hasKey] using hk
        subst hkf
        exact hnodup.1
    rw [foldl_mapSet_eq_append t _ hdisj' hnd']
    simp

theorem mapFromList_eq_self {α : Type} {l : List (String × α)}
    (h : NodupKeys l) : mapFromList l = l := by
  rw [mapFromList, foldl_mapSet_eq_append l [] (by simp [hasKey]) h]
  simp

theorem filter_mapSet {α : Type} (P : String × α → Bool) {k : String} {v : α}
    (hP : P (k, v) = false) :
    ∀ (m : List (String × α)), NodupKeys m →
      List.filter P (mapSet k v m) = List.filter (fun kv => P kv && !(kv.1 == k)) m
  | [], _ => by simp [mapSet, hP]
  | (a, b) :: t, hnd => by
    have hnd2 : (a :: t.map Prod.fst).Nodup := by
      have hx := hnd
      unfold NodupKeys at hx
      simpa only [List.map_cons] using hx
    have hnodup := List.nodup_cons.mp hnd2
    have hndt : NodupKeys t := hnodup.2
    by_cases h1 : a = k
    · subst h1
      have hms : mapSet a v ((a, b) :: t) = (a, v) :: t := by simp [mapSet]
      rw [hms, List.filter_cons, List.filter_cons]
      simp only [hP, Bool.false_eq_true, if_false]
      have hhead : (P (a, b) && !((a, b).1 == a)) = false := by simp
      simp only [hhead, Bool.false_eq_true, if_false]
      apply List.filter_congr
      intro e he
      have hne : ¬ e.1 = a := by
        intro hh
        exact hnodup.1 (List.mem_map.mpr ⟨e, he, hh⟩)
      simp [hne]
    · have hms : mapSet k v ((a, b) :: t) = (a, b) :: mapSet k v t := by
        simp [mapSet, h1]
      rw [hms, List.filter_cons, List.filter_cons]
      have hne : (a == k) = false := by simpa using h1
      have hhead : (P (a, b) && !((a, b).1 == k)) = P (a, b) := by simp [hne]
      rw [hhead, filter_mapSet P hP t hndt]

theorem filter_setList {α : Type} (P : String × α → Bool) :
    ∀ (F M : List (String × α)), (∀ e ∈ F, P e = false) → NodupKeys M →
      List.filter P (setList F M) = List.filter (fun kv => P kv && !(hasKey kv.1 F)) M
  | [], M, _, _ => by
    rw [setList_nil]
    apply (List.filter_congr ?_).symm
    intro e _
    simp [hasKey]
  | f :: F, M, hF, hnd => by
    rw [setList_cons]
    rw [filter_setList P F _ (fun e he => hF e (List.mem_cons_of_mem _ he))
        (nodupKeys_mapSet hnd)]
    have hPf : ((fun kv => P kv && !(hasKey kv.1 F)) (f.1, f.2)) = false := by
      have : P (f.1, f.2) = false := hF (f.1, f.2) (by simp)
      simp [this]
    rw [filter_mapSet _ hPf M hnd]
    apply List.filter_congr
    intro e _
    rw [hasKey_cons]
    by_cases h1 : e.1 = f.1
    · simp [h1]
    · have h2 : ¬ f.1 = e.1 := fun hh => h1 hh.symm
      cases hp : P e <;> cases hk : hasKey e.1 F <;> simp [hp, hk, h1, h2]

theorem mapGet_filter {α : Type} (P : String × α → Bool) (k : String) :
    ∀ (m : List (String × α)), (∀ e ∈ m, e.1 = k → P e = true) →
      mapGet k (List.filter P m) = mapGet k m
  | [], _ => rfl
  | (a, b) :: t, h => by
    have hrec := mapGet_filter P k t (fun e he => h e (List.mem_cons_of_mem _ he))
    by_cases h1 : a = k
    · have hP : P (a, b) = true := h (a, b) (by simp) h1
      rw [List.filter_cons, if_pos (by simpa using hP)]
      simp [mapGet, h1]
    · rw [List.filter_cons]
      cases hP : P (a, b)
      · simp only [Bool.false_eq_true, if_false]
        rw [hrec]
        simp [mapGet, h1]
      · simp only [if_true]
        simp [mapGet, h1, hrec]

theorem mapGet_eq_some_mem {α : Type} {k : String} {v : α} :
    ∀ {m : List (String × α)}, mapGet k m = some v → (k, v) ∈ m := by
  intro m
  induction m with
  | nil => intro h; simp [mapGet] at h
  | cons f t ih =>
    intro h
    obtain ⟨a, b⟩ := f
    by_cases h1 : a = k
    · subst h1
      simp only [mapGet, if_pos rfl] at h
      have hb : b = v := by simpa using h
      subst hb
      simp
    · simp only [mapGet, if_neg h1] at h
      exact List.mem_cons_of_mem _ (ih h)

theorem entry_unique_of_nodup {α : Type} {k : String} {v : α} :
    ∀ {m : List (String × α)}, NodupKeys m → (k, v) ∈ m →
      ∀ e ∈ m, e.1 = k → e = (k, v) := by
  intro m
  induction m with
  | nil => intro _ h; simp at h
  | cons f t ih =>
    intro hnd hkv e he hek
    obtain ⟨a, b⟩ := f
    have hnd2 : (a :: t.map Prod.fst).Nodup := by
      have hx := hnd
      unfold NodupKeys at hx
      simpa only [List.map_cons] using hx
    have hnodup := List.nodup_cons.mp hnd2
    rcases List.mem_cons.mp hkv with hkv1 | hkv1
    · have hka : k = a := by simpa using congrArg Prod.fst hkv1
      rcases List.mem_cons.mp he with he1 | he1
      · rw [he1, hkv1]
      · exfalso
        apply hnodup.1
        rw [← hka]
        exact List.mem_map.mpr ⟨e, he1, hek⟩
    · rcases List.mem_cons.mp he with he1 | he1
      · exfalso
        apply hnodup.1
        have hak : a = k := by rw [he1] at hek; simpa using hek
        rw [hak]
        exact List.mem_map.mpr ⟨(k, v), hkv1, rfl⟩
      · exact ih hnodup.2 hkv1 e he1 hek

/-! Characterisation of the loaders. -/

theorem load_macros_foldl (path : String) :
    ∀ (ms : List DefineListItem) (c : List CompletionItemEx) (h : List (String × HoverEx)),
      ms.foldl (fun acc m =>
          (acc.1 ++ [macroCompletionItem path m],
           mapSet m.label (macroHoverItem path m) acc.2)) (c, h) =
        (c ++ ms.map (macroCompletionItem path),
         setList (ms.map (fun m => (m.label, macroHoverItem path m))) h)
  | [], c, h => by simp [setList]
  | m :: t, c, h => by
    simp only [List.foldl_cons]
    rw [load_macros_foldl path t (c ++ [macroCompletionItem path m])
        (mapSet m.label (macroHoverItem path m) h)]
    simp [setList_cons, List.append_assoc]

theorem load_macros_eq (path : String) (d : HeaderDataList)
    (c : List CompletionItemEx) (h : List (String × HoverEx)) :
    load_macros path d c h =
      (c ++ d.macros.map (macroCompletionItem path),
       setList (d.macros.map (fun m => (m.label, macroHoverItem path m))) h) :=
  load_macros_foldl path d.macros c h

theorem load_procedures_foldl (path : String) :
    ∀ (ps : List ProcListItem) (c : List CompletionItemEx) (h : List (String × HoverEx)),
      ps.foldl (fun acc p =>
          (acc.1 ++ [procCompletionItem path p],
           mapSet p.label (procHoverItem path p) acc.2)) (c, h) =
        (c ++ ps.map (procCompletionItem path),
         setList (ps.map (fun p => (p.label, procHoverItem path p))) h)
  | [], c, h => by simp [setList]
  | p :: t, c, h => by
    simp only [List.foldl_cons]
    rw [load_procedures_foldl path t (c ++ [procCompletionItem path p])
        (mapSet p.label (procHoverItem path p) h)]
    simp [setList_cons, List.append_assoc]

theorem load_procedures_eq (path : String) (d : HeaderDataList)
    (c : List CompletionItemEx) (h : List (String × HoverEx)) :
    load_procedures path d c h =
      (c ++ d.procedures.map (procCompletionItem path),
       setList (d.procedures.map (fun p => (p.label, procHoverItem path p))) h) :=
  load_procedures_foldl path d.procedures c h

theorem reload_data_eq (path text : String) (c : Option (List CompletionItemEx))
    (h : Option HoverMap) :
    reload_data path text c h =
      { completion := (c.getD []).filter (fun item => item.source != path) ++
          freshCompletion path (find_symbols text),
        hover := setList (freshHover path (find_symbols text))
          (mapFromList ((h.getD []).filter (fun kv => kv.2.source != path))) } := by
  simp only [reload_data, freshCompletion, freshHover, load_macros_eq, load_procedures_eq,
    setList_append, List.append_assoc]

theorem freshCompletion_source (path : String) (syms : HeaderDataList) :
    ∀ i ∈ freshCompletion path syms, i.source = path := by
  intro i hi
  rcases List.mem_append.mp hi with hm | hm <;>
    obtain ⟨x, _, hx⟩ := List.mem_map.mp hm <;>
    rw [← hx] <;> rfl

theorem freshHover_source (path : String) (syms : HeaderDataList) :
    ∀ e ∈ freshHover path syms, e.2.source = path := by
  intro e he
  rcases List.mem_append.mp he with hm | hm <;>
    obtain ⟨x, _, hx⟩ := List.mem_map.mp hm <;>
    rw [← hx] <;> rfl

theorem nodupKeys_filter {α : Type} (p : String × α → Bool) {m : List (String × α)}
    (h : NodupKeys m) : NodupKeys (m.filter p) := by
  unfold NodupKeys at *
  exact h.sublist ((List.filter_sublist m).map Prod.fst)

theorem lastVal_isSome_of_hasKey {α : Type} {k : String} :
    ∀ (es : List (String × α)), hasKey k es = true → (lastVal k es).isSome
  | e :: t, h => by
    rw [hasKey_cons] at h
    rcases Bool.or_eq_true_iff.mp h with h1 | h1
    · cases hl : lastVal k t with
      | some v => simp [lastVal, hl]
      | none =>
        have : e.1 = k := by simpa using h1
        simp [lastVal, hl, this]
    · have := lastVal_isSome_of_hasKey t h1
      cases hl : lastVal k t with
      | some v => simp [lastVal, hl]
      | none => rw [hl] at this; simp at this

theorem hasKey_eq_false_of_lastVal_none {α : Type} {k : String}
    {es : List (String × α)} (h : lastVal k es = none) : hasKey k es = false := by
  cases hk : hasKey k es
  · rfl
  · have := lastVal_isSome_of_hasKey es hk
    rw [h] at this
    simp at this

theorem warnItems_none (ms : List DiagMatch) : warnItems none ms = [] := by
  cases ms <;> rfl

theorem warnItems_some (d : List Char) :
    ∀ (ms : List DiagMatch), warnItems (some d) ms = ms.map (mkWarningItem d)
  | [] => rfl
  | m :: t => by
    simp only [warnItems, List.map_cons]
    rw [warnItems_some d t]

theorem scanDefines_succ (f : Nat) (cs : List Char) :
    scanDefines (f + 1) cs =
      match tryDefineAt cs with
      | some raw => mkDefineItem raw :: scanDefines f (cs.drop (max raw.len 1))
      | none =>
        match cs with
        | [] => []
        | _ :: t => scanDefines f t := rfl

theorem scanDefines_mem :
    ∀ (fuel : Nat) (cs : List Char) (it : DefineListItem),
      it ∈ scanDefines fuel cs → ∃ raw, it = mkDefineItem raw := by
  intro fuel
  induction fuel with
  | zero => intro cs it h; simp [scanDefines] at h
  | succ f ih =>
    intro cs it h
    rw [scanDefines_succ] at h
    cases htry : tryDefineAt cs with
    | some raw =>
      rw [htry] at h
      rcases List.mem_cons.mp h with h1 | h1
      · exact ⟨raw, h1⟩
      · exact ih _ it h1
    | none =>
      rw [htry] at h
      cases cs with
      | nil => simp at h
      | cons c t => exact ih t it h

theorem mkDefineItem_spec (raw : DefineRaw) :
    (mkDefineItem raw).constant =
      (!(mkDefineItem raw).multiline && testLeadingConst (mkDefineItem raw).label.data) ∧
    (mkDefineItem raw).multiline = endsWithBackslash (mkDefineItem raw).firstline.data := by
  cases hdoc : raw.doc <;> simp [mkDefineItem, hdoc]

/-! Claim theorems. -/

/-- Claim C1: for every language id, file path and symbol name, the hover
lookup checks the self bucket for that path first, then the static bucket
for that language id, then the dynamic bucket, and returns the first match
found; in particular, when both the self bucket of `a.ssl` and the static
bucket of `fallout-ssl` define the same name, the self-tier definition is
returned. -/
theorem C1_hover_tier_precedence :
    (∀ (selfData staticData dynamicData : String → Option HoverMap)
        (langId relPath word : String),
      onHoverQuery selfData staticData dynamicData langId relPath word =
        (match (selfData relPath).bind (fun m => mapGet word m) with
         | some r => some r
         | none =>
           match (staticData langId).bind (fun m => mapGet word m) with
           | some r => some r
           | none => (dynamicData langId).bind (fun m => mapGet word m))) ∧
    (onHoverQuery
        (fun p => if p = "a.ssl" then
          some [("FOO", ⟨⟨"markdown", "self def"⟩, "a.ssl"⟩)] else none)
        (fun l => if l = "fallout-ssl" then
          some [("FOO", ⟨⟨"markdown", "static def"⟩, "ext.h"⟩)] else none)
        (fun _ => none) "fallout-ssl" "a.ssl" "FOO" =
          some ⟨⟨"markdown", "self def"⟩, "a.ssl"⟩ ∧
      (⟨⟨"markdown", "self def"⟩, "a.ssl"⟩ : HoverEx) ≠
        ⟨⟨"markdown", "static def"⟩, "ext.h"⟩) := by
  constructor
  · intro selfData staticData dynamicData langId relPath word
    unfold onHoverQuery
    cases hs : selfData relPath with
    | none =>
      cases hst : staticData langId with
      | none =>
        cases hd : dynamicData langId with
        | none => simp
        | some dm => simp
      | some sm =>
        cases hm : mapGet word sm with
        | none => cases hd : dynamicData langId <;> simp [hm]
        | some r => simp [hm]
    | some m =>
      cases hm : mapGet word m with
      | none =>
        cases hst : staticData langId with
        | none => cases hd : dynamicData langId <;> simp [hm]
        | some sm =>
          cases hm2 : mapGet word sm with
          | none => cases hd : dynamicData langId <;> simp [hm, hm2]
          | some r => simp [hm, hm2]
      | some r => simp [hm]
  · exact ⟨by decide, by decide⟩

/-- Claim C2 counterexample: on the line `NOption(154,Node003,004` with
the cursor inside `154`, `symbolAtPosition` returns `NOption(154`, not the
full compound token the claim promises. -/
theorem C2_counterexample :
    symbolAtPosition "NOption(154,Node003,004" 0 9 = some "NOption(154" ∧
    ("NOption(154" : String) ≠ "NOption(154,Node003,004" := by
  exact ⟨by decide, by decide⟩

/-- Claim C2, amended: when the token under the cursor consists solely of
digits, `symbolAtPosition` re-runs only the left boundary search with the
non-whitespace class, while the right boundary is still the first
non-word character at or after the cursor; with the cursor inside `154`
the result is therefore `NOption(154`, and the full compound token is
returned only when the cursor sits in the final segment `004`. -/
theorem C2_numeric_fallback :
    (∀ (cs : List Char) (pos : Nat), onlyDigits (firstPassToken cs pos) = true →
      symbolInLine cs pos = fallbackToken cs pos) ∧
    symbolAtPosition "NOption(154,Node003,004" 0 9 = some "NOption(154" ∧
    symbolAtPosition "NOption(154,Node003,004" 0 21 = some "NOption(154,Node003,004" := by
  refine ⟨?_, by decide, by decide⟩
  intro cs pos h
  simp [symbolInLine, h]

/-- Witness for the amended claim C2, at the counterexample line and
cursor position 9. -/
theorem C2_numeric_fallback_witness :
    onlyDigits (firstPassToken "NOption(154,Node003,004".data 9) = true ∧
    symbolInLine "NOption(154,Node003,004".data 9 =
      fallbackToken "NOption(154,Node003,004".data 9 :=
  ⟨by decide, C2_numeric_fallback.1 _ 9 (by decide)⟩

/-- Predicate written from the claim's words, for comparison with the
source's `constant_regex` test: the macro name consists entirely of
uppercase letters, digits and underscores. -/
def specAllConstName (s : String) : Bool :=
  !s.data.isEmpty && s.data.all isConstChar

/-- Claim C3 counterexample: `#define Max_hp 100` is not a multi-line
continuation and its name is not all-uppercase, yet the extractor
classifies it as a constant, because `constant_regex` is anchored only at
the start of the name. -/
theorem C3_counterexample :
    ((find_symbols "#define Max_hp 100\n").macros.map
      (fun i => (i.label, i.constant, i.multiline))) = [("Max_hp", true, false)] ∧
    specAllConstName "Max_hp" = false := by
  exact ⟨by decide, by decide⟩

/-- Claim C3, amended: a macro emitted by the extractor is classified as
a constant exactly when its (trimmed) value line is not a multi-line
continuation and the first character of its name is an uppercase letter, a
digit or an underscore; the multi-line flag is exactly "the trimmed first
line ends with a backslash". -/
theorem C3_constant_classification :
    ∀ (text : String), ∀ it ∈ (find_symbols text).macros,
      it.constant = (!it.multiline && testLeadingConst it.label.data) ∧
      it.multiline = endsWithBackslash it.firstline.data := by
  intro text it hit
  obtain ⟨raw, rfl⟩ := scanDefines_mem _ _ it hit
  exact mkDefineItem_spec raw

/-- Witness for the amended claim C3, at `#define FOO 1`. -/
theorem C3_constant_classification_witness :
    (⟨"FOO", "FOO", true, false, "1", none⟩ : DefineListItem) ∈
      (find_symbols "#define FOO 1\n").macros ∧
    ((⟨"FOO", "FOO", true, false, "1", none⟩ : DefineListItem).constant =
      (!(⟨"FOO", "FOO", true, false, "1", none⟩ : DefineListItem).multiline &&
        testLeadingConst (⟨"FOO", "FOO", true, false, "1", none⟩ : DefineListItem).label.data) ∧
     (⟨"FOO", "FOO", true, false, "1", none⟩ : DefineListItem).multiline =
       endsWithBackslash (⟨"FOO", "FOO", true, false, "1", none⟩ : DefineListItem).firstline.data) :=
  ⟨by decide, C3_constant_classification "#define FOO 1\n" _ (by decide)⟩

/-- Matches of the error pattern over a compiler output text. -/
def errMatches (text : String) : List DiagMatch :=
  scanDiags errorsPatternPrefix (text.data.length + 1) text.data

/-- Matches of the warning pattern over a compiler output text. -/
def warnMatches (text : String) : List DiagMatch :=
  scanDiags warningsPatternPrefix (text.data.length + 1) text.data

/-- Compiler output used by the claim C4 counterexample: one error line
and two well-formed warning lines. -/
def C4_text : String :=
  "[Error] <t.ssl>:1:2: a\n[Warning] <t.ssl>:3:4: b\n[Warning] <t.ssl>:5:6: c"

/-- Claim C4 counterexample: with the text document absent, processing the
first warning match raises; the catch wrapping both loops fires and the
second warning line — which individually matches the pattern — is never
parsed, so the returned batch is missing diagnostics that individually
match. -/
theorem C4_counterexample :
    (parse_compile_output C4_text none).warnings = [] ∧
    (warnMatches C4_text).length = 2 ∧
    (parse_compile_output C4_text none).errors.length = 1 := by
  exact ⟨by decide, by decide, by decide⟩

/-- Claim C4, amended: an exception inside `parse_compile_output` is
caught and the function still returns normally, but parsing stops for the
whole invocation: all error matches are returned (that loop cannot
raise), and the warning loop returns every match when the text document
is present and nothing at all when it is absent (the first iteration's
`offsetAt` call raises before any warning is pushed). A line that merely
fails to match a pattern is skipped by the scan and aborts nothing. -/
theorem C4_exception_containment :
    ∀ (text : String) (doc : Option String),
      (parse_compile_output text doc).errors = (errMatches text).map mkErrorItem ∧
      (parse_compile_output text doc).warnings =
        (match doc with
         | some d => (warnMatches text).map (mkWarningItem d.data)
         | none => []) := by
  intro text doc
  refine ⟨rfl, ?_⟩
  cases doc with
  | none => exact warnItems_none _
  | some d => exact warnItems_some d.data _

/-- Claim C5 counterexample: listing completions for a language id whose
static bucket was never populated raises a TypeError (the static lookup
lacks the `|| []` default and spreading `undefined` throws), instead of
returning a list. -/
theorem C5_counterexample :
    onCompletionList (fun _ => none) (fun _ => none) (fun _ => none) "python" "m.py" =
      Except.error "TypeError: staticList is not iterable" := rfl

/-- Claim C5, amended: missing self and dynamic buckets are defaulted to
empty lists and the completion listing returns the self-static-dynamic
concatenation, but only when the static bucket for the language id
exists; when the static bucket is absent the handler throws instead of
returning a list.  (The hover path, by contrast, guards each bucket and
returns absent without error, as proved for claim C1.) -/
theorem C5_missing_bucket :
    ∀ (selfData staticData dynamicData : String → Option (List CompletionItemEx))
      (langId relPath : String),
      (∀ s, staticData langId = some s →
        onCompletionList selfData staticData dynamicData langId relPath =
          Except.ok (((selfData relPath).getD []) ++ s ++ ((dynamicData langId).getD []))) ∧
      (staticData langId = none →
        onCompletionList selfData staticData dynamicData langId relPath =
          Except.error "TypeError: staticList is not iterable") := by
  intro sd st dd l p
  constructor
  · intro s hs
    simp [onCompletionList, hs]
  · intro hs
    simp [onCompletionList, hs]

/-- Witness for the amended claim C5: a populated static bucket yields the
concatenated list, an absent one yields the error. -/
theorem C5_missing_bucket_witness :
    ((fun l => if l = "fallout-ssl" then some ([] : List CompletionItemEx) else none)
        "fallout-ssl" = some []) ∧
    onCompletionList (fun _ => none)
      (fun l => if l = "fallout-ssl" then some [] else none)
      (fun _ => none) "fallout-ssl" "a.ssl" = Except.ok [] ∧
    onCompletionList (fun _ => none)
      (fun l => if l = "fallout-ssl" then some [] else none)
      (fun _ => none) "weidu-d" "a.d" =
        Except.error "TypeError: staticList is not iterable" := by
  refine ⟨by decide, ?_, ?_⟩
  · have h := (C5_missing_bucket (fun _ => none)
      (fun l => if l = "fallout-ssl" then some [] else none)
      (fun _ => none) "fallout-ssl" "a.ssl").1 [] (by decide)
    simpa using h
  · exact (C5_missing_bucket (fun _ => none)
      (fun l => if l = "fallout-ssl" then some [] else none)
      (fun _ => none) "weidu-d" "a.d").2 (by decide)

/-- Column-end value the error loop computes: the parsed column minus 1,
an empty column group defaulting to column 1. -/
def errColumnEnd (col : List Char) : Int :=
  (if col.isEmpty then 1 else (digitsToNat col : Int)) - 1

/-- Claim C6: every diagnostic produced by the error loop has
`column_start = 0` and `column_end` equal to the parsed column minus one,
an empty column segment defaulting to column 1; concretely, parsing
`[Error] <Sem> <f>:10:: msg` yields column start 0 and column end 0. -/
theorem C6_error_column_arithmetic :
    (∀ (text : String) (doc : Option String),
      (parse_compile_output text doc).errors =
        (errMatches text).map (fun m =>
          { file := String.mk m.file, line := parseIntDigits m.lineStr,
            column_start := 0, column_end := some (errColumnEnd m.colStr),
            message := String.mk m.msg })) ∧
    parse_compile_output "[Error] <Sem> <f>:10:: msg" (some "") =
      { errors := [{ file := "Sem> <f", line := some 10, column_start := 0,
                     column_end := some 0, message := "msg" }],
        warnings := [] } := by
  constructor
  · intro text doc
    have hfn : mkErrorItem = (fun m : DiagMatch =>
        ({ file := String.mk m.file, line := parseIntDigits m.lineStr,
           column_start := 0, column_end := some (errColumnEnd m.colStr),
           message := String.mk m.msg } : ParseItem)) := by
      funext m
      unfold mkErrorItem errColumnEnd
      cases hc : m.colStr.isEmpty
      · simp [hc, parseIntDigits]
      · simp [hc, parseIntDigits, digitsToNat]
    calc (parse_compile_output text doc).errors
        = (errMatches text).map mkErrorItem := rfl
      _ = _ := by rw [hfn]
  · exact (by decide)

/-- Claim C7 counterexample: reloading `a.h` (which defines `FOO`) over a
bucket that already held `FOO` and `BAR` from `b.h`, and then reloading a
second time with identical inputs, yields a hover map whose entry order
differs (the colliding key moves to the end on the second pass), so the
bucket is not identical to the first result. -/
theorem C7_counterexample :
    (reload_data "a.h" "#define FOO 1\n"
        (some (reload_data "a.h" "#define FOO 1\n" (some [])
          (some [("FOO", ⟨⟨"markdown", "vb"⟩, "b.h"⟩),
                 ("BAR", ⟨⟨"markdown", "vb2"⟩, "b.h"⟩)])).completion)
        (some (reload_data "a.h" "#define FOO 1\n" (some [])
          (some [("FOO", ⟨⟨"markdown", "vb"⟩, "b.h"⟩),
                 ("BAR", ⟨⟨"markdown", "vb2"⟩, "b.h"⟩)])).hover)).hover ≠
      (reload_data "a.h" "#define FOO 1\n" (some [])
        (some [("FOO", ⟨⟨"markdown", "vb"⟩, "b.h"⟩),
               ("BAR", ⟨⟨"markdown", "vb2"⟩, "b.h"⟩)])).hover := by decide

/-- Claim C7, amended: a second `reload_data` with the same path and text
returns a completion list identical to the first result and a hover map
with identical content under lookup; full structural identity of the
hover map can fail only in entry order, when a freshly loaded label
collides with an entry retained from another file. -/
theorem C7_reload_idempotence :
    ∀ (path text : String) (c : Option (List CompletionItemEx)) (h : Option HoverMap),
      (reload_data path text (some (reload_data path text c h).completion)
          (some (reload_data path text c h).hover)).completion =
        (reload_data path text c h).completion ∧
      (∀ k, mapGet k (reload_data path text (some (reload_data path text c h).completion)
          (some (reload_data path text c h).hover)).hover =
        mapGet k (reload_data path text c h).hover) := by
  intro path text c h
  have hfilterC : List.filter (fun item => item.source != path)
      ((c.getD []).filter (fun item => item.source != path)) =
      (c.getD []).filter (fun item => item.source != path) := by
    rw [List.filter_filter]
    apply List.filter_congr
    intro a _
    cases hx : (a.source != path) <;> simp [hx]
  have hfresh : List.filter (fun item => item.source != path)
      (freshCompletion path (find_symbols text)) = [] := by
    rw [List.filter_eq_nil_iff]
    intro a ha
    simp [freshCompletion_source path _ a ha]
  constructor
  · simp only [reload_data_eq, Option.getD_some]
    rw [List.filter_append, hfilterC, hfresh]
    simp
  · intro k
    simp only [reload_data_eq, Option.getD_some]
    have hndM : NodupKeys (mapFromList
        ((h.getD []).filter (fun kv => kv.2.source != path))) :=
      nodupKeys_mapFromList _
    have hFfalse : ∀ e ∈ freshHover path (find_symbols text),
        (fun kv : String × HoverEx => kv.2.source != path) e = false := by
      intro e he
      simp [freshHover_source path _ e he]
    rw [filter_setList _ _ _ hFfalse hndM]
    rw [mapFromList_eq_self (nodupKeys_filter _ hndM)]
    rw [mapGet_setList, mapGet_setList]
    cases hl : lastVal k (freshHover path (find_symbols text)) with
    | some v => simp
    | none =>
      simp only []
      have hhk : hasKey k (freshHover path (find_symbols text)) = false :=
        hasKey_eq_false_of_lastVal_none hl
      apply mapGet_filter
      intro e he hek
      have hq2 : (e.2.source != path) = true :=
        (List.mem_filter.mp (mem_mapFromList he)).2
      rw [hek]
      simp [hq2, hhk]

/-- Claim C8 counterexample: the previous bucket holds a hover entry for
`FOO` sourced from `b.h`; reloading `a.h`, whose text also defines `FOO`,
replaces that entry, so an entry whose source is not the reloaded path
does not survive unchanged. -/
theorem C8_counterexample :
    (("b.h" : String) ≠ "a.h") ∧
    mapGet "FOO" (reload_data "a.h" "#define FOO 1\n" (some [])
        (some [("FOO", ⟨⟨"markdown", "old"⟩, "b.h"⟩)])).hover ≠
      some ⟨⟨"markdown", "old"⟩, "b.h"⟩ := by
  exact ⟨by decide, by decide⟩

/-- Claim C8, amended: reloading file A leaves the completion entries of
every other file unchanged and in their original relative order, and
leaves every hover entry of another file unchanged under lookup unless
the reloaded file's new text defines that same label, in which case the
fresh entry replaces it. -/
theorem C8_reload_isolation :
    ∀ (path text : String) (c : List CompletionItemEx) (h : HoverMap),
      NodupKeys h →
      ((reload_data path text (some c) (some h)).completion.filter
          (fun i => i.source != path) = c.filter (fun i => i.source != path)) ∧
      (∀ k v, mapGet k h = some v → v.source ≠ path →
        hasKey k (freshHover path (find_symbols text)) = false →
        mapGet k (reload_data path text (some c) (some h)).hover = some v) := by
  intro path text c h hnd
  constructor
  · simp only [reload_data_eq, Option.getD_some]
    rw [List.filter_append]
    have hfilterC : List.filter (fun i => i.source != path)
        (c.filter (fun item => item.source != path)) =
        c.filter (fun item => item.source != path) := by
      rw [List.filter_filter]
      apply List.filter_congr
      intro a _
      cases hx : (a.source != path) <;> simp [hx]
    have hfresh : List.filter (fun i => i.source != path)
        (freshCompletion path (find_symbols text)) = [] := by
      rw [List.filter_eq_nil_iff]
      intro a ha
      simp [freshCompletion_source path _ a ha]
    rw [hfilterC, hfresh]
    simp
  · intro k v hk hv hhk
    simp only [reload_data_eq, Option.getD_some]
    rw [mapFromList_eq_self (nodupKeys_filter _ hnd)]
    rw [mapGet_setList]
    rw [lastVal_eq_none_of_not_hasKey _ hhk]
    simp only []
    have hstep := mapGet_filter (fun kv : String × HoverEx => kv.2.source != path) k h ?side
    · rw [hstep]
      exact hk
    case side =>
      intro e he hek
      have heq : e = (k, v) := entry_unique_of_nodup hnd (mapGet_eq_some_mem hk) e he hek
      rw [heq]
      simpa using hv

/-- Witness for the amended claim C8: an entry of another file whose
label the reloaded text does not define survives the reload unchanged. -/
theorem C8_reload_isolation_witness :
    NodupKeys [("BAR", (⟨⟨"markdown", "vb"⟩, "b.h"⟩ : HoverEx))] ∧
    mapGet "BAR" (reload_data "a.h" "#define FOO 1\n" (some [])
        (some [("BAR", ⟨⟨"markdown", "vb"⟩, "b.h"⟩)])).hover =
      some ⟨⟨"markdown", "vb"⟩, "b.h"⟩ :=
  ⟨by decide,
   (C8_reload_isolation "a.h" "#define FOO 1\n" []
      [("BAR", ⟨⟨"markdown", "vb"⟩, "b.h"⟩)] (by decide)).2 "BAR"
      ⟨⟨"markdown", "vb"⟩, "b.h"⟩ (by decide) (by decide) (by decide)⟩

/-- Claim C9: every completion item and hover entry the loaders produce
carries a source field equal to the path they were invoked for, and hence
every entry `reload_data` adds beyond the retained remainder carries the
reloaded path as its source — the invariant the replace-by-source filter
relies on. -/
theorem C9_loader_source_invariant :
    ∀ (path : String) (d : HeaderDataList) (c : List CompletionItemEx) (h : HoverMap),
      (∀ i ∈ (load_macros path d c h).1, i ∈ c ∨ i.source = path) ∧
      (∀ e ∈ (load_macros path d c h).2, e ∈ h ∨ e.2.source = path) ∧
      (∀ i ∈ (load_procedures path d c h).1, i ∈ c ∨ i.source = path) ∧
      (∀ e ∈ (load_procedures path d c h).2, e ∈ h ∨ e.2.source = path) ∧
      (∀ (text : String) (c' : Option (List CompletionItemEx)) (h' : Option HoverMap),
        (∀ i ∈ (reload_data path text c' h').completion,
          i ∈ c'.getD [] ∨ i.source = path) ∧
        (∀ e ∈ (reload_data path text c' h').hover,
          e ∈ h'.getD [] ∨ e.2.source = path)) := by
  intro path d c h
  refine ⟨?_, ?_, ?_, ?_, ?_⟩
  · intro i hi
    rw [load_macros_eq] at hi
    rcases List.mem_append.mp hi with h1 | h1
    · exact Or.inl h1
    · obtain ⟨m, _, hm⟩ := List.mem_map.mp h1
      right
      rw [← hm]
      rfl
  · intro e he
    rw [load_macros_eq] at he
    rcases mem_setList he with h1 | h1
    · exact Or.inl h1
    · obtain ⟨m, _, hm⟩ := List.mem_map.mp h1
      right
      rw [← hm]
      rfl
  · intro i hi
    rw [load_procedures_eq] at hi
    rcases List.mem_append.mp hi with h1 | h1
    · exact Or.inl h1
    · obtain ⟨m, _, hm⟩ := List.mem_map.mp h1
      right
      rw [← hm]
      rfl
  · intro e he
    rw [load_procedures_eq] at he
    rcases mem_setList he with h1 | h1
    · exact Or.inl h1
    · obtain ⟨m, _, hm⟩ := List.mem_map.mp h1
      right
      rw [← hm]
      rfl
  · intro text c' h'
    constructor
    · intro i hi
      rw [reload_data_eq] at hi
      rcases List.mem_append.mp hi with h1 | h1
      · exact Or.inl (List.mem_filter.mp h1).1
      · exact Or.inr (freshCompletion_source path _ i h1)
    · intro e he
      rw [reload_data_eq] at he
      rcases mem_setList he with h1 | h1
      · exact Or.inl (List.mem_filter.mp (mem_mapFromList h1)).1
      · exact Or.inr (freshHover_source path _ e h1)

/-- Witness for claim C9, at one concrete macro loaded for `a.h`. -/
theorem C9_loader_source_invariant_witness :
    macroCompletionItem "a.h" ⟨"FOO", "FOO", true, false, "1", none⟩ ∈
      (load_macros "a.h" ⟨[⟨"FOO", "FOO", true, false, "1", none⟩], []⟩ [] []).1 ∧
    (macroCompletionItem "a.h" ⟨"FOO", "FOO", true, false, "1", none⟩ ∈
        ([] : List CompletionItemEx) ∨
      (macroCompletionItem "a.h" ⟨"FOO", "FOO", true, false, "1", none⟩).source = "a.h") :=
  ⟨by decide,
   (C9_loader_source_invariant "a.h" ⟨[⟨"FOO", "FOO", true, false, "1", none⟩], []⟩ [] []).1
     _ (by decide)⟩

/-- Claim C10: calling `reload_data` with undefined previous buckets does
not fail — both are treated as empty — and the result holds exactly the
symbols freshly extracted from the text, every one tagged with the given
path. -/
theorem C10_reload_undefined_buckets :
    ∀ (path text : String),
      reload_data path text none none = reload_data path text (some []) (some []) ∧
      (reload_data path text none none).completion =
        freshCompletion path (find_symbols text) ∧
      ((reload_data path text none none).completion.map (fun i => i.label) =
        (find_symbols text).macros.map (fun m => m.label) ++
        (find_symbols text).procedures.map (fun p => p.label)) ∧
      (∀ i ∈ (reload_data path text none none).completion, i.source = path) ∧
      (∀ e ∈ (reload_data path text none none).hover, e.2.source = path) := by
  intro path text
  have hc : (reload_data path text none none).completion =
      freshCompletion path (find_symbols text) := by
    rw [reload_data_eq]
    simp
  refine ⟨rfl, hc, ?_, ?_, ?_⟩
  · rw [hc]
    unfold freshCompletion
    rw [List.map_append, List.map_map, List.map_map]
    have h1 : ((fun i : CompletionItemEx => i.label) ∘ macroCompletionItem path) =
        (fun m : DefineListItem => m.label) := funext fun m => rfl
    have h2 : ((fun i : CompletionItemEx => i.label) ∘ procCompletionItem path) =
        (fun p : ProcListItem => p.label) := funext fun p => rfl
    rw [h1, h2]
  · intro i hi
    rw [hc] at hi
    exact freshCompletion_source path _ i hi
  · intro e he
    rw [reload_data_eq] at he
    rcases mem_setList he with h1 | h1
    · have := mem_mapFromList h1
      simp at this
    · exact freshHover_source path _ e h1

/-- Witness for claim C10, at `#define FOO 1` reloaded for `a.h`. -/
theorem C10_reload_undefined_buckets_witness :
    macroCompletionItem "a.h" ⟨"FOO", "FOO", true, false, "1", none⟩ ∈
      (reload_data "a.h" "#define FOO 1\n" none none).completion ∧
    (macroCompletionItem "a.h" ⟨"FOO", "FOO", true, false, "1", none⟩).source = "a.h" :=
  ⟨by decide,
   (C10_reload_undefined_buckets "a.h" "#define FOO 1\n").2.2.2.1 _ (by decide)⟩

end BGforge
